import Mathlib

/-!
Verification of the Slice Aggregator specification for the
`tuto_clinicadl` tutorial repository.

The repository's own source is a jupytext notebook
(`src/training_classification.py`) that invokes the external `clinicadl`
command-line tools; the multi-slice aggregation and prediction-selection
protocol is described in the material (markdown cells and the
specification) but not implemented there.  The definitions below are
therefore modelled from the spec's words: rational numbers stand in for
floating-point probabilities so that every quantity is exact and
decidable.
-/

/-- Modelled from the spec: a Slice Prediction — one tuple per
(subject, session, slice-index) holding a probability vector over the
classes and the slice's position metadata (axis, index).  The concrete
aggregator is not present in the repository's source, only described. -/
structure SlicePred where
  subject : String
  session : String
  axis : Nat
  sliceIndex : Nat
  probs : List ℚ
deriving Repr, DecidableEq

/-- Modelled from the spec: the two aggregation policies,
single-CNN averaging and multi-CNN soft voting. -/
inductive Mode where
  | single
  | multi
deriving Repr, DecidableEq

/-- Modelled from the spec: the aggregator's error conditions. -/
inductive AggError where
  | invalidGrouping
  | invalidConfig
  | emptyInput
deriving Repr, DecidableEq

/-- Modelled from the spec: a Subject Aggregate — one record per
(subject, session) holding the final probability/vote vector and the
derived class index. -/
structure SubjectAggregate where
  subject : String
  session : String
  probVector : List ℚ
  predictedClass : Nat
deriving Repr, DecidableEq

/-- Index of the first maximum of a rational vector (arg-max with ties
broken by lowest index); `0` on the empty vector. -/
def argmaxIdx : List ℚ → Nat
  | [] => 0
  | [_] => 0
  | x :: y :: xs =>
    let j := argmaxIdx (y :: xs)
    if x < (y :: xs).getD j 0 then j + 1 else 0

/-- Elementwise mean of the probability vectors of `preds`, truncated or
zero-padded to `C` classes. -/
def meanVec (C : Nat) (preds : List SlicePred) : List ℚ :=
  (List.range C).map fun c =>
    (preds.map fun p => p.probs.getD c 0).sum / (preds.length : ℚ)

/-- The class a single slice votes for: the arg-max of its probability
vector (lowest index on ties). -/
def topClass (p : SlicePred) : Nat := argmaxIdx p.probs

/-- Per-class vote fractions: for each class, the fraction of slice
predictions whose top-vote class is that class. -/
def voteVec (C : Nat) (preds : List SlicePred) : List ℚ :=
  (List.range C).map fun c =>
    (((preds.filter fun p => topClass p = c).length : ℚ)) / (preds.length : ℚ)

/-- Two slice predictions belong to the same subject/session. -/
def sameGroup (p q : SlicePred) : Prop :=
  p.subject = q.subject ∧ p.session = q.session

/-- Boolean test for `sameGroup`. -/
def sameGroupB (p q : SlicePred) : Bool :=
  p.subject == q.subject && p.session == q.session

theorem sameGroupB_iff (p q : SlicePred) : sameGroupB p q = true ↔ sameGroup p q := by
  simp [sameGroupB, sameGroup]

/-- Modelled from the spec: the Slice Aggregator contract
`aggregate(predictions, mode, threshold)`.  The concrete aggregator is
not implemented in the repository's source; this definition follows the
spec's §4.1 behavior clause: reject a threshold outside `[0,1]`
(`InvalidConfigError`), reject an empty input (`EmptyInputError`),
reject predictions spanning several subject/sessions
(`InvalidGroupingError`); the `single` policy returns the mean
probability vector, the `multi` policy compares the leading vote
fraction with the threshold and falls back to the mean policy when the
leading fraction is below it.  The predicted class is always the
arg-max of the emitted vector, ties broken by lowest index. -/
def aggregate (preds : List SlicePred) (mode : Mode) (threshold : ℚ) :
    Except AggError SubjectAggregate :=
  if 0 ≤ threshold ∧ threshold ≤ 1 then
    match preds with
    | [] => .error .emptyInput
    | p :: rest =>
      if rest.all (sameGroupB p) then
        let C := p.probs.length
        let mean := meanVec C (p :: rest)
        match mode with
        | .single => .ok ⟨p.subject, p.session, mean, argmaxIdx mean⟩
        | .multi =>
          let votes := voteVec C (p :: rest)
          let lead := argmaxIdx votes
          if threshold ≤ votes.getD lead 0 then
            .ok ⟨p.subject, p.session, votes, lead⟩
          else
            .ok ⟨p.subject, p.session, mean, argmaxIdx mean⟩
      else .error .invalidGrouping
  else .error .invalidConfig

/-- Modelled from the spec: the default value of the
`--selection_threshold` option documented in the notebook's markdown. -/
def defaultSelectionThreshold : ℚ := 0

instance : DecidableEq (Except AggError SubjectAggregate) := fun a b =>
  match a, b with
  | .ok x, .ok y => decidable_of_iff (x = y) (by simp)
  | .error x, .error y => decidable_of_iff (x = y) (by simp)
  | .ok _, .error _ => isFalse (by simp)
  | .error _, .ok _ => isFalse (by simp)

/-- A two-class slice prediction for the tutorial's demo subject. -/
def sp (c1 c2 : ℚ) : SlicePred :=
  ⟨"sub-OASIS10001", "ses-M000", 0, 0, [c1, c2]⟩

/-- The spec's concrete scenario: three slice predictions for one
subject with probability vectors [0.9,0.1], [0.8,0.2], [0.3,0.7]. -/
def demoPreds : List SlicePred :=
  [sp (9/10) (1/10), sp (8/10) (2/10), sp (3/10) (7/10)]

theorem argmaxIdx_cons_cons (x y : ℚ) (xs : List ℚ) :
    argmaxIdx (x :: y :: xs) =
      if x < (y :: xs).getD (argmaxIdx (y :: xs)) 0
        then argmaxIdx (y :: xs) + 1 else 0 := rfl

theorem argmaxIdx_spec : ∀ v : List ℚ,
    (∀ i, i < v.length → v.getD i 0 ≤ v.getD (argmaxIdx v) 0) ∧
    (∀ i, i < argmaxIdx v → v.getD i 0 < v.getD (argmaxIdx v) 0)
  | [] => by simp [argmaxIdx]
  | [x] => by
    refine ⟨fun i hi => ?_, fun i hi => ?_⟩
    · have hz : i = 0 := by simpa using hi
      subst hz
      simp [argmaxIdx]
    · simp [argmaxIdx] at hi
  | x :: y :: xs => by
    obtain ⟨ih1, ih2⟩ := argmaxIdx_spec (y :: xs)
    rw [argmaxIdx_cons_cons]
    split
    case isTrue hlt =>
      refine ⟨fun i hi => ?_, fun i hi => ?_⟩
      · match i with
        | 0 =>
          simp only [List.getD_cons_succ, List.getD_cons_zero]
          exact le_of_lt hlt
        | i + 1 =>
          simp only [List.getD_cons_succ]
          exact ih1 i (by simpa using hi)
      · match i with
        | 0 =>
          simp only [List.getD_cons_succ, List.getD_cons_zero]
          exact hlt
        | i + 1 =>
          simp only [List.getD_cons_succ]
          exact ih2 i (by omega)
    case isFalse hge =>
      push_neg at hge
      refine ⟨fun i hi => ?_, fun i hi => ?_⟩
      · match i with
        | 0 => exact le_refl _
        | i + 1 =>
          simp only [List.getD_cons_succ, List.getD_cons_zero]
          exact le_trans (ih1 i (by simpa using hi)) hge
      · omega

theorem argmaxIdx_lt_length : ∀ v : List ℚ, v ≠ [] → argmaxIdx v < v.length
  | [_], _ => by simp [argmaxIdx]
  | x :: y :: xs, _ => by
    have ih := argmaxIdx_lt_length (y :: xs) (by simp)
    rw [argmaxIdx_cons_cons]
    split
    · simpa using ih
    · simp

theorem getD_nonneg_of_forall (v : List ℚ) (h : ∀ x ∈ v, 0 ≤ x) (i : Nat) :
    0 ≤ v.getD i 0 := by
  rcases Nat.lt_or_ge i v.length with hi | hi
  · rw [List.getD_eq_getElem v 0 hi]
    exact h _ (List.getElem_mem hi)
  · rw [List.getD_eq_default v 0 hi]

theorem voteVec_mem_nonneg (C : Nat) (preds : List SlicePred) :
    ∀ x ∈ voteVec C preds, 0 ≤ x := by
  intro x hx
  simp only [voteVec, List.mem_map] at hx
  obtain ⟨c, _, rfl⟩ := hx
  positivity

theorem sameGroup_symm {p q : SlicePred} (h : sameGroup p q) : sameGroup q p :=
  ⟨h.1.symm, h.2.symm⟩

theorem sameGroup_trans {p q r : SlicePred} (h1 : sameGroup p q)
    (h2 : sameGroup q r) : sameGroup p r :=
  ⟨h1.1.trans h2.1, h1.2.trans h2.2⟩

theorem aggregate_single_eq (p : SlicePred) (rest : List SlicePred) (t : ℚ)
    (ht : 0 ≤ t ∧ t ≤ 1) (hall : rest.all (sameGroupB p) = true) :
    aggregate (p :: rest) .single t =
      .ok ⟨p.subject, p.session, meanVec p.probs.length (p :: rest),
           argmaxIdx (meanVec p.probs.length (p :: rest))⟩ := by
  simp only [aggregate, hall, if_true]
  rw [if_pos ht]

theorem aggregate_multi_eq_select (p : SlicePred) (rest : List SlicePred) (t : ℚ)
    (ht : 0 ≤ t ∧ t ≤ 1) (hall : rest.all (sameGroupB p) = true)
    (hsel : t ≤ (voteVec p.probs.length (p :: rest)).getD
      (argmaxIdx (voteVec p.probs.length (p :: rest))) 0) :
    aggregate (p :: rest) .multi t =
      .ok ⟨p.subject, p.session, voteVec p.probs.length (p :: rest),
           argmaxIdx (voteVec p.probs.length (p :: rest))⟩ := by
  simp only [aggregate, hall, if_true]
  rw [if_pos ht, if_pos hsel]

theorem aggregate_multi_eq_fallback (p : SlicePred) (rest : List SlicePred) (t : ℚ)
    (ht : 0 ≤ t ∧ t ≤ 1) (hall : rest.all (sameGroupB p) = true)
    (hsel : (voteVec p.probs.length (p :: rest)).getD
      (argmaxIdx (voteVec p.probs.length (p :: rest))) 0 < t) :
    aggregate (p :: rest) .multi t =
      .ok ⟨p.subject, p.session, meanVec p.probs.length (p :: rest),
           argmaxIdx (meanVec p.probs.length (p :: rest))⟩ := by
  simp only [aggregate, hall, if_true]
  rw [if_pos ht, if_neg (not_le.mpr hsel)]

/-- C3: `aggregate` is a pure function of its inputs: two calls on equal
predictions, mode and threshold return equal Subject Aggregates
(two-run determinism); the embedding is side-effect free by
construction. -/
theorem aggregate_two_run_deterministic (preds₁ preds₂ : List SlicePred)
    (m₁ m₂ : Mode) (t₁ t₂ : ℚ)
    (hp : preds₁ = preds₂) (hm : m₁ = m₂) (ht : t₁ = t₂) :
    aggregate preds₁ m₁ t₁ = aggregate preds₂ m₂ t₂ := by
  rw [hp, hm, ht]

theorem aggregate_two_run_deterministic_witness :
    aggregate demoPreds .multi (6/10) = aggregate demoPreds .multi (6/10) :=
  aggregate_two_run_deterministic demoPreds demoPreds .multi .multi
    (6/10) (6/10) rfl rfl rfl

/-- C4: for every predictions sequence and mode, a threshold outside
[0,1] makes `aggregate` fail immediately with `InvalidConfigError`. -/
theorem aggregate_invalid_threshold_error (preds : List SlicePred) (m : Mode)
    (t : ℚ) (ht : t < 0 ∨ 1 < t) :
    aggregate preds m t = .error .invalidConfig := by
  have hne : ¬ (0 ≤ t ∧ t ≤ 1) := by
    rcases ht with h | h
    · exact fun hc => absurd hc.1 (not_le.mpr h)
    · exact fun hc => absurd hc.2 (not_le.mpr h)
  unfold aggregate
  rw [if_neg hne]

theorem aggregate_invalid_threshold_error_witness :
    aggregate demoPreds .multi (10001/10000) = .error .invalidConfig :=
  aggregate_invalid_threshold_error demoPreds .multi (10001/10000)
    (Or.inr (by norm_num))

theorem all_sameGroupB_of_forall (p : SlicePred) (rest : List SlicePred)
    (hgrp : ∀ q ∈ rest, sameGroup p q) : rest.all (sameGroupB p) = true := by
  rw [List.all_eq_true]
  intro q hq
  exact (sameGroupB_iff p q).mpr (hgrp q hq)

/-- C7: for the `multi` policy with threshold 0 on a non-empty
single-subject input, the result is always the leading class by vote
fraction — the fallback to the mean policy never triggers. -/
theorem aggregate_multi_threshold_zero (p : SlicePred) (rest : List SlicePred)
    (hgrp : ∀ q ∈ rest, sameGroup p q) :
    aggregate (p :: rest) .multi 0 =
      .ok ⟨p.subject, p.session, voteVec p.probs.length (p :: rest),
           argmaxIdx (voteVec p.probs.length (p :: rest))⟩ :=
  aggregate_multi_eq_select p rest 0 (by norm_num)
    (all_sameGroupB_of_forall p rest hgrp)
    (getD_nonneg_of_forall _ (voteVec_mem_nonneg _ _) _)

theorem aggregate_multi_threshold_zero_witness :
    aggregate demoPreds .multi 0 =
      .ok ⟨"sub-OASIS10001", "ses-M000", voteVec 2 demoPreds,
           argmaxIdx (voteVec 2 demoPreds)⟩ :=
  aggregate_multi_threshold_zero (sp (9/10) (1/10))
    [sp (8/10) (2/10), sp (3/10) (7/10)]
    (by intro q hq; fin_cases hq <;> exact ⟨rfl, rfl⟩)

/-- C1: for every non-empty single-subject input and threshold in [0,1],
the `multi` policy computes per-class vote fractions, selects the
leading class when its vote fraction reaches the threshold, otherwise
falls back to the `single`-mode mean-probability policy, and in either
case returns a Subject Aggregate — it never abstains. -/
theorem aggregate_multi_select_or_fallback (p : SlicePred)
    (rest : List SlicePred) (t : ℚ) (ht : 0 ≤ t ∧ t ≤ 1)
    (hgrp : ∀ q ∈ rest, sameGroup p q) :
    (t ≤ (voteVec p.probs.length (p :: rest)).getD
        (argmaxIdx (voteVec p.probs.length (p :: rest))) 0 →
      aggregate (p :: rest) .multi t =
        .ok ⟨p.subject, p.session, voteVec p.probs.length (p :: rest),
             argmaxIdx (voteVec p.probs.length (p :: rest))⟩) ∧
    ((voteVec p.probs.length (p :: rest)).getD
        (argmaxIdx (voteVec p.probs.length (p :: rest))) 0 < t →
      aggregate (p :: rest) .multi t = aggregate (p :: rest) .single t) ∧
    (∃ agg, aggregate (p :: rest) .multi t = .ok agg) := by
  have hall := all_sameGroupB_of_forall p rest hgrp
  refine ⟨fun hsel => aggregate_multi_eq_select p rest t ht hall hsel,
    fun hsel => ?_, ?_⟩
  · rw [aggregate_multi_eq_fallback p rest t ht hall hsel,
      aggregate_single_eq p rest t ht hall]
  · rcases le_or_lt t ((voteVec p.probs.length (p :: rest)).getD
        (argmaxIdx (voteVec p.probs.length (p :: rest))) 0) with hsel | hsel
    · exact ⟨_, aggregate_multi_eq_select p rest t ht hall hsel⟩
    · exact ⟨_, aggregate_multi_eq_fallback p rest t ht hall hsel⟩

theorem aggregate_multi_select_or_fallback_witness :
    aggregate demoPreds .multi (6/10) =
      .ok ⟨"sub-OASIS10001", "ses-M000", voteVec 2 demoPreds,
           argmaxIdx (voteVec 2 demoPreds)⟩ :=
  (aggregate_multi_select_or_fallback (sp (9/10) (1/10))
    [sp (8/10) (2/10), sp (3/10) (7/10)] (6/10) (by norm_num)
    (by intro q hq; fin_cases hq <;> exact ⟨rfl, rfl⟩)).1
    (by norm_num [voteVec, topClass, argmaxIdx, sp, List.range_succ,
      List.filter_cons])

/-- C6: every Subject Aggregate returned by `aggregate` carries the
arg-max class of its own probability/vote vector, and ties in the
arg-max resolve to the lowest class index: every earlier index holds a
strictly smaller value, every index holds a value at most that of the
predicted class. -/
theorem aggregate_argmax_lowest_tie (preds : List SlicePred) (m : Mode)
    (t : ℚ) (agg : SubjectAggregate) (h : aggregate preds m t = .ok agg) :
    agg.predictedClass = argmaxIdx agg.probVector ∧
    (∀ i, i < agg.probVector.length →
      agg.probVector.getD i 0 ≤ agg.probVector.getD agg.predictedClass 0) ∧
    (∀ i, i < agg.predictedClass →
      agg.probVector.getD i 0 < agg.probVector.getD agg.predictedClass 0) := by
  have hcls : agg.predictedClass = argmaxIdx agg.probVector := by
    unfold aggregate at h
    split at h
    · split at h
      · exact absurd h (by simp)
      · split at h
        · split at h
          · cases h
            rfl
          · dsimp only at h
            split at h <;> (cases h; rfl)
        · exact absurd h (by simp)
    · exact absurd h (by simp)
  obtain ⟨h1, h2⟩ := argmaxIdx_spec agg.probVector
  refine ⟨hcls, ?_, ?_⟩ <;> rw [hcls]
  · exact h1
  · intro i hi
    exact h2 i (hcls ▸ hi)

/-- The tied demo aggregate: probability vector [0.5, 0.5]. -/
def tiePred : SlicePred := ⟨"sub-OASIS10001", "ses-M000", 0, 0, [1/2, 1/2]⟩

/-- The Subject Aggregate produced from `tiePred` alone. -/
def tieAgg : SubjectAggregate := ⟨"sub-OASIS10001", "ses-M000", [1/2, 1/2], 0⟩

theorem aggregate_argmax_lowest_tie_witness :
    tieAgg.predictedClass = argmaxIdx tieAgg.probVector :=
  (aggregate_argmax_lowest_tie [tiePred] .single 0 tieAgg
    (by norm_num [aggregate, meanVec, argmaxIdx, tiePred, tieAgg,
      List.range_succ])).1

theorem aggregate_empty_eq (m : Mode) (t : ℚ) (ht : 0 ≤ t ∧ t ≤ 1) :
    aggregate [] m t = .error .emptyInput := by
  unfold aggregate
  rw [if_pos ht]

theorem aggregate_grouping_error (p : SlicePred) (rest : List SlicePred)
    (m : Mode) (t : ℚ) (ht : 0 ≤ t ∧ t ≤ 1)
    (hall : rest.all (sameGroupB p) ≠ true) :
    aggregate (p :: rest) m t = .error .invalidGrouping := by
  simp only [aggregate, hall, if_false]
  rw [if_pos ht]
  simp

/-- C10: the soft-voting selection threshold defaults to 0, and when
only one (shared) network output policy applies — the `single` mode —
the threshold has no effect on the prediction: any two in-range
thresholds produce the same result. -/
theorem selection_threshold_single_no_effect (preds : List SlicePred)
    (t t' : ℚ) (ht : 0 ≤ t ∧ t ≤ 1) (ht' : 0 ≤ t' ∧ t' ≤ 1) :
    defaultSelectionThreshold = 0 ∧
    aggregate preds .single t = aggregate preds .single t' := by
  refine ⟨rfl, ?_⟩
  cases preds with
  | nil => rw [aggregate_empty_eq _ _ ht, aggregate_empty_eq _ _ ht']
  | cons p rest =>
    by_cases hall : rest.all (sameGroupB p) = true
    · rw [aggregate_single_eq p rest t ht hall,
        aggregate_single_eq p rest t' ht' hall]
    · rw [aggregate_grouping_error p rest _ t ht hall,
        aggregate_grouping_error p rest _ t' ht' hall]

theorem selection_threshold_single_no_effect_witness :
    defaultSelectionThreshold = 0 ∧
    aggregate demoPreds .single 0 = aggregate demoPreds .single (1/2) :=
  selection_threshold_single_no_effect demoPreds 0 (1/2)
    (by norm_num) (by norm_num)

/-- A slice prediction for a different subject, used to exhibit the
mixed-grouping error. -/
def otherPred : SlicePred := ⟨"sub-OASIS10002", "ses-M000", 0, 0, [1/2, 1/2]⟩

/-- C5: an empty predictions sequence makes `aggregate` fail with
`EmptyInputError`, and predictions spanning more than one
subject/session make it fail with `InvalidGroupingError`; both failures
are surfaced as explicit error values, never swallowed. -/
theorem aggregate_empty_or_mixed_group_error (t : ℚ) (ht : 0 ≤ t ∧ t ≤ 1)
    (m : Mode) (preds : List SlicePred) (a b : SlicePred)
    (ha : a ∈ preds) (hb : b ∈ preds) (hab : ¬ sameGroup a b) :
    aggregate [] m t = .error .emptyInput ∧
    aggregate preds m t = .error .invalidGrouping := by
  refine ⟨aggregate_empty_eq m t ht, ?_⟩
  cases preds with
  | nil => cases ha
  | cons p rest =>
    refine aggregate_grouping_error p rest m t ht ?_
    intro hall
    rw [List.all_eq_true] at hall
    have hp : ∀ q ∈ p :: rest, sameGroup p q := by
      intro q hq
      rcases List.mem_cons.mp hq with rfl | hq2
      · exact ⟨rfl, rfl⟩
      · exact (sameGroupB_iff p q).mp (hall q hq2)
    exact hab (sameGroup_trans (sameGroup_symm (hp a ha)) (hp b hb))

theorem aggregate_empty_or_mixed_group_error_witness :
    aggregate [] .single (1/2) = .error .emptyInput ∧
    aggregate [sp (9/10) (1/10), otherPred] .single (1/2) =
      .error .invalidGrouping :=
  aggregate_empty_or_mixed_group_error (1/2) (by norm_num) .single
    [sp (9/10) (1/10), otherPred] (sp (9/10) (1/10)) otherPred
    (by simp) (by simp)
    (fun h => by simp [sameGroup, sp, otherPred] at h)

theorem meanVec_perm (C : Nat) {l₁ l₂ : List SlicePred} (h : l₁.Perm l₂) :
    meanVec C l₁ = meanVec C l₂ := by
  unfold meanVec
  congr 1
  funext c
  rw [h.length_eq, (h.map fun p => p.probs.getD c 0).sum_eq]

/-- C2: the `single` policy returns exactly the elementwise mean of the
input probability vectors (with the arg-max class), and the result is
invariant under any permutation of the input sequence. -/
theorem aggregate_single_mean_perm_invariant (C : Nat) (t : ℚ)
    (ht : 0 ≤ t ∧ t ≤ 1) (p : SlicePred) (rest l₂ : List SlicePred)
    (hgrp : ∀ q ∈ rest, sameGroup p q)
    (hlen : ∀ q ∈ p :: rest, q.probs.length = C)
    (hperm : (p :: rest).Perm l₂) :
    aggregate (p :: rest) .single t =
      .ok ⟨p.subject, p.session, meanVec C (p :: rest),
           argmaxIdx (meanVec C (p :: rest))⟩ ∧
    aggregate l₂ .single t = aggregate (p :: rest) .single t := by
  have hall := all_sameGroupB_of_forall p rest hgrp
  have hgrp' : ∀ q ∈ p :: rest, sameGroup p q := by
    intro q hq
    rcases List.mem_cons.mp hq with rfl | hq2
    · exact ⟨rfl, rfl⟩
    · exact hgrp q hq2
  have hCp : p.probs.length = C := hlen p (List.mem_cons_self p rest)
  have h1 : aggregate (p :: rest) .single t =
      .ok ⟨p.subject, p.session, meanVec C (p :: rest),
           argmaxIdx (meanVec C (p :: rest))⟩ := by
    rw [aggregate_single_eq p rest t ht hall, hCp]
  cases l₂ with
  | nil => exact absurd hperm.length_eq (by simp)
  | cons q rest₂ =>
    have hq_mem : q ∈ p :: rest :=
      hperm.mem_iff.mpr (List.mem_cons_self q rest₂)
    have hgq : sameGroup p q := hgrp' q hq_mem
    have hall₂ : rest₂.all (sameGroupB q) = true := by
      apply all_sameGroupB_of_forall
      intro r hr
      have hr_mem : r ∈ p :: rest :=
        hperm.mem_iff.mpr (List.mem_cons_of_mem q hr)
      exact sameGroup_trans (sameGroup_symm hgq) (hgrp' r hr_mem)
    have hCq : q.probs.length = C := hlen q hq_mem
    refine ⟨h1, ?_⟩
    rw [h1, aggregate_single_eq q rest₂ t ht hall₂, hCq,
      ← meanVec_perm C hperm, ← hgq.1, ← hgq.2]

theorem aggregate_single_mean_perm_invariant_witness :
    aggregate demoPreds .single (1/2) =
      .ok ⟨"sub-OASIS10001", "ses-M000", meanVec 2 demoPreds,
           argmaxIdx (meanVec 2 demoPreds)⟩ ∧
    aggregate [sp (8/10) (2/10), sp (9/10) (1/10), sp (3/10) (7/10)]
        .single (1/2) = aggregate demoPreds .single (1/2) :=
  aggregate_single_mean_perm_invariant 2 (1/2) (by norm_num)
    (sp (9/10) (1/10)) [sp (8/10) (2/10), sp (3/10) (7/10)]
    [sp (8/10) (2/10), sp (9/10) (1/10), sp (3/10) (7/10)]
    (by intro q hq; fin_cases hq <;> exact ⟨rfl, rfl⟩)
    (by intro q hq; fin_cases hq <;> rfl)
    (List.Perm.swap (sp (8/10) (2/10)) (sp (9/10) (1/10)) [sp (3/10) (7/10)])

/-- The subject/session key of a slice prediction. -/
def groupKey (p : SlicePred) : String × String := (p.subject, p.session)

/-- Modelled from the spec: the slice-level metric table treats every
Slice Prediction of the input set as one sample. -/
def sliceSampleCount (preds : List SlicePred) : Nat := preds.length

/-- Modelled from the spec: the subject-level metric table treats every
Subject Aggregate — one per distinct subject/session of the same input
set, with no re-inference — as one sample. -/
def subjectSampleCount (preds : List SlicePred) : Nat :=
  (preds.map groupKey).dedup.length

theorem keyCount_eq (preds : List SlicePred) (k : String × String) :
    @List.count _ instBEqOfDecidableEq k (preds.map groupKey) =
      preds.countP (fun q => decide (groupKey q = k)) := by
  unfold List.count
  rw [List.countP_map]
  rfl

/-- C8: both metric levels are functions of the same input set of slice
predictions, the subject-level sample count never exceeds the
slice-level one, and they are equal exactly when every subject/session
contributes exactly one slice. -/
theorem subject_le_slice_sample_count (preds : List SlicePred) :
    subjectSampleCount preds ≤ sliceSampleCount preds ∧
    (subjectSampleCount preds = sliceSampleCount preds ↔
      ∀ p ∈ preds,
        preds.countP (fun q => decide (groupKey q = groupKey p)) = 1) := by
  have hsub := List.dedup_sublist (preds.map groupKey)
  have hle : subjectSampleCount preds ≤ sliceSampleCount preds := by
    simpa [subjectSampleCount, sliceSampleCount] using hsub.length_le
  refine ⟨hle, ?_, ?_⟩
  · intro heq
    have hlen : (preds.map groupKey).dedup.length =
        (preds.map groupKey).length := by
      simpa [subjectSampleCount, sliceSampleCount] using heq
    have hnd : (preds.map groupKey).Nodup := by
      rw [← hsub.eq_of_length hlen]
      exact List.nodup_dedup _
    intro p hp
    rw [← keyCount_eq]
    exact List.count_eq_one_of_mem hnd (List.mem_map_of_mem groupKey hp)
  · intro hcnt
    have hnd : (preds.map groupKey).Nodup := by
      rw [List.nodup_iff_count_le_one]
      intro a
      by_cases hmem : a ∈ preds.map groupKey
      · obtain ⟨p, hp, rfl⟩ := List.mem_map.mp hmem
        rw [keyCount_eq]
        exact le_of_eq (hcnt p hp)
      · have h0 : @List.count _ instBEqOfDecidableEq a (preds.map groupKey) = 0 := by
          unfold List.count
          rw [List.countP_eq_zero]
          intro b hb
          rw [show (@BEq.beq _ instBEqOfDecidableEq b a) = decide (b = a) from rfl,
            decide_eq_true_eq]
          exact fun hba => hmem (hba ▸ hb)
        rw [h0]
        omega
    simp [subjectSampleCount, sliceSampleCount,
      List.dedup_eq_self.mpr hnd]

/-- Modelled from the spec: a Label Code is an association of raw label
strings with integer node values; well-formed when each raw string
appears once (it is a mapping). -/
def labelCodeWellFormed (lc : List (String × Nat)) : Prop :=
  (lc.map Prod.fst).Nodup

/-- The claim's injectivity property: no two distinct raw label strings
are associated with the same class index. -/
def labelCodeInjective (lc : List (String × Nat)) : Prop :=
  ∀ a ∈ lc, ∀ b ∈ lc, a.2 = b.2 → a.1 = b.1

/-- A label code with a synonym: two raw strings share node 0, as the
notebook's label_code note explicitly allows ("several names may be
associated with the same node"). -/
def synonymLabelCode : List (String × Nat) :=
  [("AD", 0), ("Alzheimer", 0), ("CN", 1)]

/-- The number of classes C: the size of the Label Code's value set. -/
def labelCodeNumClasses (lc : List (String × Nat)) : Nat :=
  (lc.map Prod.snd).dedup.length

/-- C9 counterexample: a well-formed Label Code in which two distinct
raw label strings map to the same class index — permitted by the
notebook's label_code note — so the claimed injectivity fails. -/
theorem labelCode_injectivity_fails :
    labelCodeWellFormed synonymLabelCode ∧
    ¬ labelCodeInjective synonymLabelCode := by
  constructor
  · unfold labelCodeWellFormed synonymLabelCode
    decide
  · intro h
    have h2 := h ("AD", 0) (by unfold synonymLabelCode; simp)
      ("Alzheimer", 0) (by unfold synonymLabelCode; simp) rfl
    simp at h2

theorem meanVec_length (C : Nat) (preds : List SlicePred) :
    (meanVec C preds).length = C := by
  simp [meanVec]

theorem voteVec_length (C : Nat) (preds : List SlicePred) :
    (voteVec C preds).length = C := by
  simp [voteVec]

/-- C9 amended: the Label Code need not be injective (synonyms map to
one node), it is fixed before aggregation and shared by all records,
and probability vectors have exactly C entries, C the size of the value
set: when every input vector has C entries, so does the aggregate's
output vector. -/
theorem aggregate_probVector_length (lc : List (String × Nat))
    (preds : List SlicePred) (m : Mode) (t : ℚ) (agg : SubjectAggregate)
    (hlen : ∀ p ∈ preds, p.probs.length = labelCodeNumClasses lc)
    (h : aggregate preds m t = .ok agg) :
    agg.probVector.length = labelCodeNumClasses lc := by
  unfold aggregate at h
  split at h
  · split at h
    · exact absurd h (by simp)
    · rename_i p rest
      have hC : p.probs.length = labelCodeNumClasses lc :=
        hlen p (List.mem_cons_self p rest)
      split at h
      · split at h
        · cases h
          simpa [meanVec_length] using hC
        · dsimp only at h
          split at h <;> cases h
          · simpa [voteVec_length] using hC
          · simpa [meanVec_length] using hC
      · exact absurd h (by simp)
  · exact absurd h (by simp)

theorem aggregate_probVector_length_witness :
    (⟨"sub-OASIS10001", "ses-M000", [2/3, 1/3], 0⟩ :
      SubjectAggregate).probVector.length =
    labelCodeNumClasses synonymLabelCode :=
  aggregate_probVector_length synonymLabelCode demoPreds .single (1/2) _
    (by intro p hp; fin_cases hp <;> decide)
    (by norm_num [aggregate, meanVec, argmaxIdx, demoPreds, sp,
      sameGroupB, List.range_succ])
